import Mathlib

/-!
Verification of the consensus-set consistency checker of the Sia repository
(`modules/consensus/consistency.go`).

The transactional bolt store is modelled as a list of named buckets, each an
association list from byte-string keys to byte-string values; bolt presents
buckets and keys in byte-sorted order, so the lists are taken in that
presentation order.  Byte strings are lists of naturals.  The external
collaborators of the checker (the `encoding` package, the coinbase schedule
`types.CalculateCoinbase`, the protocol constant `types.MaturityDelay`, and
the fork engine `forkBlockchain`) are not part of the checked core and enter
as parameters, following the spec's description of them.
-/

set_option maxHeartbeats 1000000

namespace Sia

/-- Byte strings are modelled as lists of naturals (each conceptually < 256). -/
abbrev Bytes := List Nat

/-- Name of the block-path bucket (ASCII `BlockPath`; the spec's `BlockIndex`). -/
def BlockPath : Bytes := [66, 108, 111, 99, 107, 80, 97, 116, 104]

/-- Name of the siacoin-output bucket (ASCII `SiacoinOutputs`). -/
def SiacoinOutputs : Bytes := [83, 105, 97, 99, 111, 105, 110, 79, 117, 116, 112, 117, 116, 115]

/-- Name of the file-contract bucket (ASCII `FileContracts`). -/
def FileContracts : Bytes := [70, 105, 108, 101, 67, 111, 110, 116, 114, 97, 99, 116, 115]

/-- Name of the siafund-output bucket (ASCII `SiafundOutputs`). -/
def SiafundOutputs : Bytes := [83, 105, 97, 102, 117, 110, 100, 79, 117, 116, 112, 117, 116, 115]

/-- Name of the siafund-pool bucket (ASCII `SiafundPool`). -/
def SiafundPool : Bytes := [83, 105, 97, 102, 117, 110, 100, 80, 111, 111, 108]

/-- Name prefix of delayed-siacoin-output buckets (ASCII `dsco_`). -/
def prefixDSCO : Bytes := [100, 115, 99, 111, 95]

/-- Name prefix of file-contract-expiration buckets (ASCII `fcex_`). -/
def prefixFCEX : Bytes := [102, 99, 101, 120, 95]

/-- Modelled from the spec: the protocol constant `TotalFundSupply`
(`types.SiafundCount`), the fixed total of locked fund units.  `types.Currency`
is an arbitrary-precision non-negative integer, modelled by `Nat`. -/
def SiafundCount : Nat := 10000

/-- A consensus-set checksum.  The source pushes leaves into a `crypto.NewTree`
merkle tree and returns its root; the crypto package is external to the checked
core, and the root is a function of the pushed-leaf sequence (injective up to
hash collisions), so the checksum is modelled as that leaf sequence and
checksum equality as leaf-sequence equality. -/
abbrev Hash := List Bytes

/-- Modelled from the spec: a `ProcessedBlock` record — a block together with
its parent reference and the consensus checksum recorded at the moment the
block became the consensus head.  Only the fields read by the checker appear. -/
structure ProcessedBlock where
  parentID : Bytes
  consensusChecksum : Hash
deriving DecidableEq, Repr

/-- The transactional view of the consensus store.  `buckets` lists every named
bucket in byte-sorted name order, each holding its (key, value) entries in
byte-sorted key order (bolt's presentation order).  `height` models the
`blockHeight` accessor, `currentPB` the `currentProcessedBlock` accessor, and
`blockMap` the decoded content of the block-map bucket used by `getBlockMap`
(these accessors are in the consensus package but outside the checked file;
they are modelled from the spec's external-interface description). -/
structure Tx where
  buckets : List (Bytes × List (Bytes × Bytes))
  height : Nat
  currentPB : ProcessedBlock
  blockMap : List (Bytes × ProcessedBlock)
deriving DecidableEq, Repr

/-- `tx.Bucket(name)`: the entries of the bucket with the given name (empty if
the bucket is absent; the fixed buckets always exist in a live store). -/
def Tx.bucket (tx : Tx) (name : Bytes) : List (Bytes × Bytes) :=
  ((tx.buckets.find? (fun nb => nb.1 == name)).map Prod.snd).getD []

deriving instance DecidableEq for Except

/-- The errors the consistency checker can produce, one constructor per
`errors.New` site in the source, plus the errors propagated from the external
block-map lookup and fork engine. -/
inductive CErr where
  | siafundMiscount
  | repeatDSCOMap
  | repeatDelayedOutput
  | insufficientDSCO
  | missingDSCOBucket
  | tooManyDSCOBuckets
  | checksumMismatchRevert
  | checksumMismatchReapply
  | blockNotFound
  | external (s : String)
deriving DecidableEq, Repr

/-- The external environment of the checker: the decoders of the `encoding`
package (only the `Value` field of a decoded output is read), the protocol
coinbase schedule `types.CalculateCoinbase`, and the protocol constant
`types.MaturityDelay`.  All are outside the checked file and enter as
parameters. -/
structure Env where
  decodeFundValue : Bytes → Nat
  decodeCoinValue : Bytes → Nat
  calculateCoinbase : Nat → Nat
  maturityDelay : Nat

/-- `checkSiacoinCount`: the body of the source function is `return nil`. -/
def checkSiacoinCount (_ : Tx) : Except CErr Unit := .ok ()

/-- `checkSiafundCount`: fold the decoded `Value` of every entry of the
siafund-output bucket into a running total, then compare with
`types.SiafundCount`. -/
def checkSiafundCount (e : Env) (tx : Tx) : Except CErr Unit :=
  let total := (tx.bucket SiafundOutputs).foldl (fun acc kv => acc + e.decodeFundValue kv.2) 0
  if total ≠ SiafundCount then .error .siafundMiscount else .ok ()

/-- The mathematical sum of the decoded values of the siafund-output bucket. -/
def fundTotal (e : Env) (tx : Tx) : Nat :=
  ((tx.bucket SiafundOutputs).map (fun kv => e.decodeFundValue kv.2)).sum

theorem foldl_add_eq_sum (f : Bytes × Bytes → Nat) (l : List (Bytes × Bytes)) (n : Nat) :
    l.foldl (fun acc kv => acc + f kv) n = n + (l.map f).sum := by
  induction l generalizing n with
  | nil => simp
  | cons kv rest ih => simp [ih, Nat.add_assoc]

/-- C9: `checkSiacoinCount` is a permanent no-op — it returns success for
every input state, regardless of the state's contents. -/
theorem c9_checkSiacoinCount_noop : ∀ tx : Tx, checkSiacoinCount tx = .ok () := by
  intro tx
  rfl

/-- C2: `checkSiafundCount` errors exactly when the (never-wrapping `Nat`) sum
of the decoded `Value` fields of the siafund-output bucket differs from the
protocol constant `SiafundCount`, and then the error is the fund-supply
mismatch; it succeeds exactly when the sum equals the constant. -/
theorem c2_checkSiafundCount_spec (e : Env) (tx : Tx) :
    (checkSiafundCount e tx = .ok () ↔ fundTotal e tx = SiafundCount) ∧
    (∀ er, checkSiafundCount e tx = .error er ↔
      (fundTotal e tx ≠ SiafundCount ∧ er = .siafundMiscount)) := by
  have htot : (tx.bucket SiafundOutputs).foldl
      (fun acc kv => acc + e.decodeFundValue kv.2) 0 = fundTotal e tx := by
    simpa using foldl_add_eq_sum (fun kv => e.decodeFundValue kv.2) (tx.bucket SiafundOutputs) 0
  constructor
  · unfold checkSiafundCount
    rw [htot]
    by_cases h : fundTotal e tx = SiafundCount <;> simp [h]
  · intro er
    unfold checkSiafundCount
    rw [htot]
    by_cases h : fundTotal e tx = SiafundCount <;> simp [h, eq_comm]


/-- Pushing every (key, value) pair of a bucket's entry list into the checksum
tree, key then value: two consecutive leaves per entry, in entry order. -/
def pushPairs (entries : List (Bytes × Bytes)) : List Bytes :=
  (entries.map (fun kv => [kv.1, kv.2])).flatten

/-- Whether a bucket name carries the delayed-siacoin-output or the
file-contract-expiration name prefix (`strings.HasPrefix` in the source). -/
def prefixedName (name : Bytes) : Bool :=
  prefixDSCO.isPrefixOf name || prefixFCEX.isPrefixOf name

/-- `consensusChecksum`: push every (key, value) pair of the five constant
buckets, in the order the source lists them, then iterate over all buckets of
the transaction (byte-sorted name order) and push the pairs of every bucket
whose name carries the `dsco_` or `fcex_` prefix; the checksum is the root of
the resulting tree, modelled as the pushed-leaf sequence. -/
def consensusChecksum (tx : Tx) : Hash :=
  (([BlockPath, SiacoinOutputs, FileContracts, SiafundOutputs, SiafundPool].map
    (fun name => pushPairs (tx.bucket name))).flatten)
  ++ ((tx.buckets.map (fun nb => if prefixedName nb.1 then pushPairs nb.2 else [])).flatten)

/-- Reference definition written from the spec's words: push, for each of the
five fixed partitions in order, every (key, value) pair as two consecutive
leaves in key order; then scan all partitions in name order and, for every
partition whose name starts with the delayed-coin-output prefix or the
file-contract-expiration prefix, push every pair within it; the digest is the
root of the tree over that leaf sequence. -/
def consensusChecksumSpec (tx : Tx) : Hash :=
  pushPairs (tx.bucket BlockPath) ++ pushPairs (tx.bucket SiacoinOutputs) ++
  pushPairs (tx.bucket FileContracts) ++ pushPairs (tx.bucket SiafundOutputs) ++
  pushPairs (tx.bucket SiafundPool) ++
  (((tx.buckets.filter (fun nb => prefixedName nb.1)).map (fun nb => pushPairs nb.2)).flatten)

theorem join_map_ite_eq_join_map_filter (l : List (Bytes × List (Bytes × Bytes))) :
    (l.map (fun nb => if prefixedName nb.1 then pushPairs nb.2 else [])).flatten =
      ((l.filter (fun nb => prefixedName nb.1)).map (fun nb => pushPairs nb.2)).flatten := by
  induction l with
  | nil => rfl
  | cons nb rest ih =>
    by_cases h : prefixedName nb.1 <;> simp [List.filter_cons, h, ih]

/-- C6: the source's `consensusChecksum` computes exactly the reference digest
described by the spec — the fixed partitions' pairs in order, followed by the
pairs of every `dsco_`- or `fcex_`-prefixed partition in store order — and, as
a pure function of the transaction, reads the state without modifying it. -/
theorem c6_consensusChecksum_refines : ∀ tx : Tx,
    consensusChecksum tx = consensusChecksumSpec tx := by
  intro tx
  unfold consensusChecksum consensusChecksumSpec
  rw [join_map_ite_eq_join_map_filter]
  simp [List.append_assoc]

/-- `getBlockMap` (modelled from the spec: `GetProcessedBlock(tx, blockID)`,
failing with a block-not-found error when the id is absent from the block
index). -/
def getBlockMap (tx : Tx) (id : Bytes) : Except CErr ProcessedBlock :=
  match tx.blockMap.find? (fun kv => kv.1 == id) with
  | some kv => .ok kv.2
  | none => .error .blockNotFound

/-- The external fork engine (`forkBlockchain`): moves the consensus head of
the transaction to a target processed block, returning the mutated
transaction or an error.  It is a collaborator outside the checked core and
enters as a parameter. -/
abbrev ForkEngine := Tx → ProcessedBlock → Except CErr Tx

/-- `checkRevertApply`: look up the parent of the current processed block in
the block map, fork to the parent and compare the recomputed checksum with the
parent's recorded checksum, then fork back to the current block and compare
the recomputed checksum with its recorded checksum; the first failure aborts. -/
def checkRevertApply (fork : ForkEngine) (tx : Tx) : Except CErr Unit :=
  match getBlockMap tx tx.currentPB.parentID with
  | .error er => .error er
  | .ok parent =>
    match fork tx parent with
    | .error er => .error er
    | .ok tx1 =>
      if consensusChecksum tx1 = parent.consensusChecksum then
        match fork tx1 tx.currentPB with
        | .error er => .error er
        | .ok tx2 =>
          if consensusChecksum tx2 = tx.currentPB.consensusChecksum then .ok ()
          else .error .checksumMismatchReapply
      else .error .checksumMismatchRevert

/-- C1: `checkRevertApply` succeeds exactly when the block-map lookup of the
parent succeeds, the fork to the parent succeeds and the reverted state's
checksum equals the parent's recorded checksum, and the fork back to the
current block succeeds and the recomputed checksum equals the current block's
recorded checksum; a revert mismatch yields the revert-mismatch error (checked
before the reapply fork runs), and a reapply mismatch after a clean revert
yields the reapply-mismatch error. -/
theorem c1_checkRevertApply_spec (fork : ForkEngine) (tx : Tx) :
    (checkRevertApply fork tx = .ok () ↔
      ∃ parent tx1 tx2,
        getBlockMap tx tx.currentPB.parentID = .ok parent ∧
        fork tx parent = .ok tx1 ∧
        consensusChecksum tx1 = parent.consensusChecksum ∧
        fork tx1 tx.currentPB = .ok tx2 ∧
        consensusChecksum tx2 = tx.currentPB.consensusChecksum) ∧
    (∀ parent tx1,
      getBlockMap tx tx.currentPB.parentID = .ok parent →
      fork tx parent = .ok tx1 →
      consensusChecksum tx1 ≠ parent.consensusChecksum →
      checkRevertApply fork tx = .error .checksumMismatchRevert) ∧
    (∀ parent tx1 tx2,
      getBlockMap tx tx.currentPB.parentID = .ok parent →
      fork tx parent = .ok tx1 →
      consensusChecksum tx1 = parent.consensusChecksum →
      fork tx1 tx.currentPB = .ok tx2 →
      consensusChecksum tx2 ≠ tx.currentPB.consensusChecksum →
      checkRevertApply fork tx = .error .checksumMismatchReapply) := by
  refine ⟨⟨?_, ?_⟩, ?_, ?_⟩
  · intro h
    unfold checkRevertApply at h
    cases hbm : getBlockMap tx tx.currentPB.parentID with
    | error er => simp only [hbm] at h; exact Except.noConfusion h
    | ok parent =>
      simp only [hbm] at h
      cases hf1 : fork tx parent with
      | error er => simp only [hf1] at h; exact Except.noConfusion h
      | ok tx1 =>
        simp only [hf1] at h
        by_cases hc1 : consensusChecksum tx1 = parent.consensusChecksum
        · rw [if_pos hc1] at h
          cases hf2 : fork tx1 tx.currentPB with
          | error er => simp only [hf2] at h; exact Except.noConfusion h
          | ok tx2 =>
            simp only [hf2] at h
            by_cases hc2 : consensusChecksum tx2 = tx.currentPB.consensusChecksum
            · exact ⟨parent, tx1, tx2, rfl, hf1, hc1, hf2, hc2⟩
            · rw [if_neg hc2] at h; exact Except.noConfusion h
        · rw [if_neg hc1] at h; exact Except.noConfusion h
  · rintro ⟨p, t1, t2, hp, h1, h2, h3, h4⟩
    unfold checkRevertApply
    simp only [hp, h1, if_pos h2, h3, if_pos h4]
  · intro parent tx1 hbm hf1 hc1
    unfold checkRevertApply
    simp only [hbm, hf1, if_neg hc1]
  · intro parent tx1 tx2 hbm hf1 hc1 hf2 hc2
    unfold checkRevertApply
    simp only [hbm, hf1, if_pos hc1, hf2, if_neg hc2]

/-- Subtraction of `types.BlockHeight` values, an unsigned 64-bit type in Go:
`a - b` computed modulo `2 ^ 64`. -/
def wsub (a b : Nat) : Nat :=
  ((a % 2 ^ 64) + (2 ^ 64 - b % 2 ^ 64)) % 2 ^ 64

/-- Modelled from the spec: the external `encoding` package's little-endian
decoding of an unsigned 64-bit integer, applied to the trailing bytes of a
`dsco_`-prefixed bucket name to recover the bucket's maturation height. -/
def leDecode : Bytes → Nat
  | [] => 0
  | b :: bs => (b % 256) + 256 * leDecode bs

/-- The height decoded from the name suffix of a delayed-siacoin-output
bucket (`encoding.Unmarshal(name[len(prefixDSCO):], &height)`). -/
def decodeHeight (b : Bytes) : Nat := leDecode (b.take 8)

/-- `copy(id[:], idBytes)` into a zeroed 32-byte `SiacoinOutputID`: the first
32 bytes of the key, zero-padded on the right. -/
def toId (b : Bytes) : Bytes := (b ++ List.replicate 32 0).take 32

/-- The decoded height of a `dsco_`-prefixed bucket name. -/
def bHeight (name : Bytes) : Nat := decodeHeight (name.drop prefixDSCO.length)

/-- The ids of a delayed-siacoin-output bucket's entries, in entry order. -/
def bIds (b : List (Bytes × Bytes)) : List Bytes := b.map (fun kv => toId kv.1)

/-- The total decoded value of a delayed-siacoin-output bucket's entries. -/
def bSum (e : Env) (b : List (Bytes × Bytes)) : Nat :=
  (b.map (fun kv => e.decodeCoinValue kv.2)).sum

/-- The delayed-siacoin-output buckets of a bucket list, in store order. -/
def dscoBuckets (l : List (Bytes × List (Bytes × Bytes))) :
    List (Bytes × List (Bytes × Bytes)) :=
  l.filter (fun nb => prefixDSCO.isPrefixOf nb.1)

/-- The decoded heights of the delayed-siacoin-output buckets, in store
order. -/
def heightsOf (l : List (Bytes × List (Bytes × Bytes))) : List Nat :=
  l.map (fun nb => bHeight nb.1)

/-- All delayed-output ids of a bucket list, in scan order. -/
def allIds (l : List (Bytes × List (Bytes × Bytes))) : List Bytes :=
  (l.map (fun nb => bIds nb.2)).flatten

/-- A delayed-siacoin-output bucket meets the minimum-value requirement: its
total decoded value is at least the coinbase for height `h - MaturityDelay`
(unsigned subtraction). -/
def minOK (e : Env) (nb : Bytes × List (Bytes × Bytes)) : Prop :=
  e.calculateCoinbase (wsub (bHeight nb.1) e.maturityDelay) ≤ bSum e nb.2

instance (e : Env) (nb : Bytes × List (Bytes × Bytes)) : Decidable (minOK e nb) :=
  inferInstanceAs (Decidable (_ ≤ _))

/-- The inner `b.ForEach` of `checkDSCOs`: walk a bucket's entries checking
each id against the ids seen so far in the entire scan, extending the id set
and accumulating the bucket total. -/
def scanBucket (e : Env) : List (Bytes × Bytes) → List Bytes → Nat →
    Except CErr (List Bytes × Nat)
  | [], ids, total => .ok (ids, total)
  | kv :: rest, ids, total =>
    if toId kv.1 ∈ ids then .error .repeatDelayedOutput
    else scanBucket e rest (toId kv.1 :: ids) (total + e.decodeCoinValue kv.2)

/-- The outer `tx.ForEach` of `checkDSCOs`: walk every bucket, skipping those
without the `dsco_` prefix; for a delayed-siacoin-output bucket, decode its
height, reject a repeated height, scan its entries, and reject a total below
the coinbase for `height - MaturityDelay`. -/
def scanBuckets (e : Env) : List (Bytes × List (Bytes × Bytes)) → List Nat → List Bytes →
    Except CErr (List Nat × List Bytes)
  | [], tracker, ids => .ok (tracker, ids)
  | nb :: rest, tracker, ids =>
    if prefixDSCO.isPrefixOf nb.1 then
      if bHeight nb.1 ∈ tracker then .error .repeatDSCOMap
      else
        match scanBucket e nb.2 ids 0 with
        | .error er => .error er
        | .ok (ids2, total) =>
          if total < e.calculateCoinbase (wsub (bHeight nb.1) e.maturityDelay) then
            .error .insufficientDSCO
          else scanBuckets e rest (bHeight nb.1 :: tracker) ids2
    else scanBuckets e rest tracker ids

/-- The heights visited by the Go loop
`for i := currentHeight + 1; i <= currentHeight + MaturityDelay; i++`
over unsigned 64-bit values. -/
def goLoopHeights (ch md : Nat) : List Nat :=
  if (ch + 1) % 2 ^ 64 ≤ (ch + md) % 2 ^ 64 then
    (List.range ((ch + md) % 2 ^ 64 + 1 - (ch + 1) % 2 ^ 64)).map
      (fun k => (ch + 1) % 2 ^ 64 + k)
  else []

/-- The body of that loop: skip heights below `MaturityDelay`, fail on an
expected height with no bucket, and count the expected buckets. -/
def checkExpectedLoop (md : Nat) (tracker : List Nat) : List Nat → Nat → Except CErr Nat
  | [], cnt => .ok cnt
  | i :: rest, cnt =>
    if i < md then checkExpectedLoop md tracker rest cnt
    else if i ∈ tracker then checkExpectedLoop md tracker rest (cnt + 1)
    else .error .missingDSCOBucket

/-- `checkDSCOs`: scan all buckets for delayed-siacoin-output consistency,
then check that exactly the expected maturation heights are represented. -/
def checkDSCOs (e : Env) (tx : Tx) : Except CErr Unit :=
  match scanBuckets e tx.buckets [] [] with
  | .error er => .error er
  | .ok (tracker, _) =>
    match checkExpectedLoop e.maturityDelay tracker
        (goLoopHeights tx.height e.maturityDelay) 0 with
    | .error er => .error er
    | .ok expectedBuckets =>
      if tracker.length ≠ expectedBuckets then .error .tooManyDSCOBuckets
      else .ok ()

/-- `checkConsistency`: the four checks in the source's fixed order, stopping
at the first error. -/
def checkConsistency (e : Env) (fork : ForkEngine) (tx : Tx) : Except CErr Unit :=
  match checkSiacoinCount tx with
  | .error er => .error er
  | .ok _ =>
    match checkSiafundCount e tx with
    | .error er => .error er
    | .ok _ =>
      match checkDSCOs e tx with
      | .error er => .error er
      | .ok _ => checkRevertApply fork tx

theorem bIds_nil : bIds [] = [] := rfl

theorem bIds_cons (kv : Bytes × Bytes) (rest : List (Bytes × Bytes)) :
    bIds (kv :: rest) = toId kv.1 :: bIds rest := rfl

theorem bSum_nil (e : Env) : bSum e [] = 0 := rfl

theorem bSum_cons (e : Env) (kv : Bytes × Bytes) (rest : List (Bytes × Bytes)) :
    bSum e (kv :: rest) = e.decodeCoinValue kv.2 + bSum e rest := by
  simp [bSum]

theorem heightsOf_nil : heightsOf [] = [] := rfl

theorem heightsOf_cons (nb : Bytes × List (Bytes × Bytes))
    (rest : List (Bytes × List (Bytes × Bytes))) :
    heightsOf (nb :: rest) = bHeight nb.1 :: heightsOf rest := rfl

theorem allIds_nil : allIds [] = [] := rfl

theorem allIds_cons (nb : Bytes × List (Bytes × Bytes))
    (rest : List (Bytes × List (Bytes × Bytes))) :
    allIds (nb :: rest) = bIds nb.2 ++ allIds rest := rfl

theorem scanBucket_ok (e : Env) (b : List (Bytes × Bytes)) (ids : List Bytes) (t : Nat)
    (hnd : (bIds b).Nodup) (hfresh : ∀ id ∈ bIds b, id ∉ ids) :
    scanBucket e b ids t = .ok ((bIds b).reverse ++ ids, t + bSum e b) := by
  induction b generalizing ids t with
  | nil => simp [scanBucket, bSum, bIds]
  | cons kv rest ih =>
    rw [bIds_cons, List.nodup_cons] at hnd
    have hni : toId kv.1 ∉ ids :=
      hfresh (toId kv.1) (by rw [bIds_cons]; exact List.mem_cons_self _ _)
    rw [scanBucket, if_neg hni]
    rw [ih (toId kv.1 :: ids) (t + e.decodeCoinValue kv.2) hnd.2 ?fresh]
    · rw [bIds_cons, List.reverse_cons, List.append_assoc, List.singleton_append]
      have harith : t + e.decodeCoinValue kv.2 + bSum e rest = t + bSum e (kv :: rest) := by
        rw [bSum_cons]; omega
      rw [harith]
    case fresh =>
      intro id hid hmem
      rcases List.mem_cons.mp hmem with heq | hmem2
      · exact hnd.1 (heq ▸ hid)
      · exact hfresh id (by rw [bIds_cons]; exact List.mem_cons_of_mem _ hid) hmem2

theorem scanBucket_err (e : Env) (b : List (Bytes × Bytes)) (ids : List Bytes) (t : Nat)
    (h : ¬((bIds b).Nodup ∧ ∀ id ∈ bIds b, id ∉ ids)) :
    scanBucket e b ids t = .error .repeatDelayedOutput := by
  induction b generalizing ids t with
  | nil => exact absurd ⟨by simp [bIds], by simp [bIds]⟩ h
  | cons kv rest ih =>
    by_cases hni : toId kv.1 ∈ ids
    · rw [scanBucket, if_pos hni]
    · rw [scanBucket, if_neg hni]
      apply ih
      rintro ⟨hnd, hfr⟩
      apply h
      constructor
      · rw [bIds_cons, List.nodup_cons]
        refine ⟨fun hmem => ?_, hnd⟩
        exact hfr (toId kv.1) hmem (List.mem_cons_self _ _)
      · intro id hid
        rw [bIds_cons, List.mem_cons] at hid
        rcases hid with rfl | hid
        · exact hni
        · intro hmem
          exact hfr id hid (List.mem_cons_of_mem _ hmem)

theorem scanBucket_err_kind (e : Env) (b : List (Bytes × Bytes)) (ids : List Bytes) (t : Nat)
    (er : CErr) (h : scanBucket e b ids t = .error er) : er = .repeatDelayedOutput := by
  induction b generalizing ids t with
  | nil => simp [scanBucket] at h
  | cons kv rest ih =>
    rw [scanBucket] at h
    by_cases hni : toId kv.1 ∈ ids
    · rw [if_pos hni] at h
      cases h
      rfl
    · rw [if_neg hni] at h
      exact ih _ _ h

theorem scanBuckets_filter (e : Env) (l : List (Bytes × List (Bytes × Bytes)))
    (tr : List Nat) (ids : List Bytes) :
    scanBuckets e l tr ids = scanBuckets e (dscoBuckets l) tr ids := by
  induction l generalizing tr ids with
  | nil => rfl
  | cons nb rest ih =>
    by_cases hd : prefixDSCO.isPrefixOf nb.1
    · have hfc : dscoBuckets (nb :: rest) = nb :: dscoBuckets rest := by
        rw [dscoBuckets, dscoBuckets, List.filter_cons, if_pos hd]
      rw [hfc, scanBuckets, if_pos hd, scanBuckets, if_pos hd]
      split
      · rfl
      · split
        · rfl
        · split
          · rfl
          · exact ih _ _
    · have hfc : dscoBuckets (nb :: rest) = dscoBuckets rest := by
        rw [dscoBuckets, dscoBuckets, List.filter_cons, if_neg hd]
      rw [hfc, scanBuckets, if_neg hd, ih]

theorem scanBuckets_ok_nodup (e : Env) (l : List (Bytes × List (Bytes × Bytes)))
    (tr tr' : List Nat) (ids ids' : List Bytes)
    (h : scanBuckets e l tr ids = .ok (tr', ids')) (hnd : tr.Nodup) : tr'.Nodup := by
  induction l generalizing tr ids with
  | nil =>
    rw [scanBuckets] at h
    cases h
    exact hnd
  | cons nb rest ih =>
    rw [scanBuckets] at h
    by_cases hd : prefixDSCO.isPrefixOf nb.1
    · rw [if_pos hd] at h
      by_cases hh : bHeight nb.1 ∈ tr
      · rw [if_pos hh] at h
        exact Except.noConfusion h
      · rw [if_neg hh] at h
        cases hsb : scanBucket e nb.2 ids 0 with
        | error er =>
          simp only [hsb] at h
          exact Except.noConfusion h
        | ok p =>
          obtain ⟨ids2, total⟩ := p
          simp only [hsb] at h
          by_cases hlt : total < e.calculateCoinbase (wsub (bHeight nb.1) e.maturityDelay)
          · rw [if_pos hlt] at h
            exact Except.noConfusion h
          · rw [if_neg hlt] at h
            exact ih _ _ h (List.nodup_cons.mpr ⟨hh, hnd⟩)
    · rw [if_neg hd] at h
      exact ih _ _ h hnd

theorem scanBucket_ok_total (e : Env) (b : List (Bytes × Bytes)) (ids : List Bytes) (t : Nat)
    (ids2 : List Bytes) (total : Nat) (h : scanBucket e b ids t = .ok (ids2, total)) :
    total = t + bSum e b := by
  induction b generalizing ids t with
  | nil =>
    rw [scanBucket] at h
    cases h
    rw [bSum_nil]
    omega
  | cons kv rest ih =>
    rw [scanBucket] at h
    by_cases hni : toId kv.1 ∈ ids
    · rw [if_pos hni] at h
      exact Except.noConfusion h
    · rw [if_neg hni] at h
      have := ih _ _ h
      rw [bSum_cons]
      omega

theorem goLoopHeights_no_wrap (ch md : Nat) (hmd : 0 < md) (hw : ch + md < 2 ^ 64) :
    goLoopHeights ch md = (List.range md).map (fun k => ch + 1 + k) := by
  have hs : (ch + 1) % 2 ^ 64 = ch + 1 := Nat.mod_eq_of_lt (by omega)
  have hb : (ch + md) % 2 ^ 64 = ch + md := Nat.mod_eq_of_lt hw
  rw [goLoopHeights, hs, hb, if_pos (by omega)]
  have hr : ch + md + 1 - (ch + 1) = md := by omega
  rw [hr]

theorem mem_range_map (a n i : Nat) :
    i ∈ (List.range n).map (fun k => a + k) ↔ a ≤ i ∧ i < a + n := by
  constructor
  · intro h
    rcases List.mem_map.mp h with ⟨k, hk, rfl⟩
    rw [List.mem_range] at hk
    omega
  · rintro ⟨h1, h2⟩
    exact List.mem_map.mpr ⟨i - a, List.mem_range.mpr (by omega), by omega⟩

theorem checkExpectedLoop_err_kind (md : Nat) (tracker : List Nat) (l : List Nat) (c : Nat)
    (er : CErr) (h : checkExpectedLoop md tracker l c = .error er) : er = .missingDSCOBucket := by
  induction l generalizing c with
  | nil => rw [checkExpectedLoop] at h; exact Except.noConfusion h
  | cons i rest ih =>
    rw [checkExpectedLoop] at h
    by_cases hlt : i < md
    · rw [if_pos hlt] at h
      exact ih _ h
    · rw [if_neg hlt] at h
      by_cases hm : i ∈ tracker
      · rw [if_pos hm] at h
        exact ih _ h
      · rw [if_neg hm] at h
        cases h
        rfl

theorem checkExpectedLoop_ok (md : Nat) (tracker : List Nat) (l : List Nat) (c : Nat)
    (h : ∀ i ∈ l, ¬ i < md → i ∈ tracker) :
    checkExpectedLoop md tracker l c = .ok (c + l.countP (fun i => decide (md ≤ i))) := by
  induction l generalizing c with
  | nil => simp [checkExpectedLoop]
  | cons i rest ih =>
    rw [checkExpectedLoop]
    by_cases hlt : i < md
    · rw [if_pos hlt, ih _ (fun j hj => h j (List.mem_cons_of_mem _ hj)),
        List.countP_cons_of_neg _ _ (by simpa using hlt)]
    · rw [if_neg hlt, if_pos (h i (List.mem_cons_self _ _) hlt),
        ih _ (fun j hj => h j (List.mem_cons_of_mem _ hj)),
        List.countP_cons_of_pos _ _ (by simpa using hlt)]
      congr 1
      omega

theorem checkExpectedLoop_ok_inv (md : Nat) (tracker : List Nat) (l : List Nat) (c m : Nat)
    (h : checkExpectedLoop md tracker l c = .ok m) :
    (∀ i ∈ l, ¬ i < md → i ∈ tracker) ∧ m = c + l.countP (fun i => decide (md ≤ i)) := by
  induction l generalizing c with
  | nil =>
    rw [checkExpectedLoop] at h
    cases h
    simp
  | cons i rest ih =>
    rw [checkExpectedLoop] at h
    by_cases hlt : i < md
    · rw [if_pos hlt] at h
      obtain ⟨h1, h2⟩ := ih _ h
      refine ⟨?_, ?_⟩
      · intro j hj hjm
        rcases List.mem_cons.mp hj with rfl | hj2
        · exact absurd hlt hjm
        · exact h1 j hj2 hjm
      · rw [h2, List.countP_cons_of_neg _ _ (by simpa using hlt)]
    · rw [if_neg hlt] at h
      by_cases hm : i ∈ tracker
      · rw [if_pos hm] at h
        obtain ⟨h1, h2⟩ := ih _ h
        refine ⟨?_, ?_⟩
        · intro j hj hjm
          rcases List.mem_cons.mp hj with rfl | hj2
          · exact hm
          · exact h1 j hj2 hjm
        · rw [h2, List.countP_cons_of_pos _ _ (by simpa using hlt)]
          omega
      · rw [if_neg hm] at h
        exact Except.noConfusion h

theorem checkExpectedLoop_err (md : Nat) (tracker : List Nat) (l : List Nat) (c : Nat)
    (h : ∃ i ∈ l, ¬ i < md ∧ i ∉ tracker) :
    checkExpectedLoop md tracker l c = .error .missingDSCOBucket := by
  induction l generalizing c with
  | nil => simp at h
  | cons i rest ih =>
    rw [checkExpectedLoop]
    by_cases hlt : i < md
    · rw [if_pos hlt]
      apply ih
      rcases h with ⟨j, hj, hjm, hjt⟩
      rcases List.mem_cons.mp hj with rfl | hj2
      · exact absurd hlt hjm
      · exact ⟨j, hj2, hjm, hjt⟩
    · rw [if_neg hlt]
      by_cases hm : i ∈ tracker
      · rw [if_pos hm]
        apply ih
        rcases h with ⟨j, hj, hjm, hjt⟩
        rcases List.mem_cons.mp hj with rfl | hj2
        · exact absurd hm hjt
        · exact ⟨j, hj2, hjm, hjt⟩
      · rw [if_neg hm]

theorem scanBuckets_ok (e : Env) (l : List (Bytes × List (Bytes × Bytes))) :
    ∀ tr ids, (∀ nb ∈ l, prefixDSCO.isPrefixOf nb.1) →
    (heightsOf l).Nodup → (∀ h ∈ heightsOf l, h ∉ tr) →
    (allIds l).Nodup → (∀ id ∈ allIds l, id ∉ ids) →
    (∀ nb ∈ l, minOK e nb) →
    scanBuckets e l tr ids = .ok ((heightsOf l).reverse ++ tr, (allIds l).reverse ++ ids) := by
  induction l with
  | nil =>
    intro tr ids _ _ _ _ _ _
    simp [scanBuckets, heightsOf, allIds]
  | cons nb rest ih =>
    intro tr ids hdsco hH hHf hI hIf hM
    have hd := hdsco nb (List.mem_cons_self _ _)
    rw [heightsOf_cons, List.nodup_cons] at hH
    rw [allIds_cons, List.nodup_append] at hI
    have hh : bHeight nb.1 ∉ tr :=
      hHf _ (by rw [heightsOf_cons]; exact List.mem_cons_self _ _)
    have hsb := scanBucket_ok e nb.2 ids 0 hI.1
      (fun id hid => hIf id (by rw [allIds_cons]; exact List.mem_append_left _ hid))
    rw [scanBuckets, if_pos hd, if_neg hh]
    simp only [hsb]
    have hmOK := hM nb (List.mem_cons_self _ _)
    rw [minOK] at hmOK
    rw [if_neg (by omega)]
    rw [ih (bHeight nb.1 :: tr) ((bIds nb.2).reverse ++ ids)
      (fun nb2 h2 => hdsco nb2 (List.mem_cons_of_mem _ h2)) hH.2 ?hf hI.2.1 ?idf
      (fun nb2 h2 => hM nb2 (List.mem_cons_of_mem _ h2))]
    · rw [heightsOf_cons, allIds_cons]
      simp [List.reverse_cons, List.reverse_append, List.append_assoc]
    case hf =>
      intro hgt hh2
      rw [List.mem_cons, not_or]
      refine ⟨fun heq => hH.1 (heq ▸ hh2), ?_⟩
      exact hHf hgt (by rw [heightsOf_cons]; exact List.mem_cons_of_mem _ hh2)
    case idf =>
      intro id hid
      rw [List.mem_append, not_or]
      refine ⟨fun hmem => ?_, ?_⟩
      · rw [List.mem_reverse] at hmem
        exact hI.2.2 hmem hid
      · exact hIf id (by rw [allIds_cons]; exact List.mem_append_right _ hid)

theorem scanBuckets_errInsuff (e : Env) (l : List (Bytes × List (Bytes × Bytes))) :
    ∀ tr ids, (∀ nb ∈ l, prefixDSCO.isPrefixOf nb.1) →
    (heightsOf l).Nodup → (∀ h ∈ heightsOf l, h ∉ tr) →
    (allIds l).Nodup → (∀ id ∈ allIds l, id ∉ ids) →
    (∃ nb ∈ l, ¬ minOK e nb) →
    scanBuckets e l tr ids = .error .insufficientDSCO := by
  induction l with
  | nil =>
    intro tr ids _ _ _ _ _ hEx
    simp at hEx
  | cons nb rest ih =>
    intro tr ids hdsco hH hHf hI hIf hEx
    have hd := hdsco nb (List.mem_cons_self _ _)
    rw [heightsOf_cons, List.nodup_cons] at hH
    rw [allIds_cons, List.nodup_append] at hI
    have hh : bHeight nb.1 ∉ tr :=
      hHf _ (by rw [heightsOf_cons]; exact List.mem_cons_self _ _)
    have hsb := scanBucket_ok e nb.2 ids 0 hI.1
      (fun id hid => hIf id (by rw [allIds_cons]; exact List.mem_append_left _ hid))
    rw [scanBuckets, if_pos hd, if_neg hh]
    simp only [hsb]
    by_cases hm : minOK e nb
    · rw [minOK] at hm
      rw [if_neg (by omega)]
      apply ih (bHeight nb.1 :: tr) ((bIds nb.2).reverse ++ ids)
        (fun nb2 h2 => hdsco nb2 (List.mem_cons_of_mem _ h2)) hH.2 ?hf hI.2.1 ?idf
      · rcases hEx with ⟨nb2, hmem, hnm⟩
        rcases List.mem_cons.mp hmem with rfl | hmem2
        · exact absurd (by rw [minOK]; omega) hnm
        · exact ⟨nb2, hmem2, hnm⟩
      case hf =>
        intro hgt hh2
        rw [List.mem_cons, not_or]
        refine ⟨fun heq => hH.1 (heq ▸ hh2), ?_⟩
        exact hHf hgt (by rw [heightsOf_cons]; exact List.mem_cons_of_mem _ hh2)
      case idf =>
        intro id hid
        rw [List.mem_append, not_or]
        refine ⟨fun hmem => ?_, ?_⟩
        · rw [List.mem_reverse] at hmem
          exact hI.2.2 hmem hid
        · exact hIf id (by rw [allIds_cons]; exact List.mem_append_right _ hid)
    · rw [minOK, not_le] at hm
      rw [if_pos (by omega)]

theorem scanBuckets_errDupId (e : Env) (l : List (Bytes × List (Bytes × Bytes))) :
    ∀ tr ids, (∀ nb ∈ l, prefixDSCO.isPrefixOf nb.1) →
    (heightsOf l).Nodup → (∀ h ∈ heightsOf l, h ∉ tr) →
    (∀ nb ∈ l, minOK e nb) → ids.Nodup →
    ¬ (allIds l ++ ids).Nodup →
    scanBuckets e l tr ids = .error .repeatDelayedOutput := by
  induction l with
  | nil =>
    intro tr ids _ _ _ _ hids hNI
    rw [allIds_nil, List.nil_append] at hNI
    exact absurd hids hNI
  | cons nb rest ih =>
    intro tr ids hdsco hH hHf hM hids hNI
    have hd := hdsco nb (List.mem_cons_self _ _)
    rw [heightsOf_cons, List.nodup_cons] at hH
    have hh : bHeight nb.1 ∉ tr :=
      hHf _ (by rw [heightsOf_cons]; exact List.mem_cons_self _ _)
    rw [scanBuckets, if_pos hd, if_neg hh]
    by_cases hcond : (bIds nb.2).Nodup ∧ ∀ id ∈ bIds nb.2, id ∉ ids
    · have hsb := scanBucket_ok e nb.2 ids 0 hcond.1 hcond.2
      simp only [hsb]
      have hmOK := hM nb (List.mem_cons_self _ _)
      rw [minOK] at hmOK
      rw [if_neg (by omega)]
      apply ih (bHeight nb.1 :: tr) ((bIds nb.2).reverse ++ ids)
        (fun nb2 h2 => hdsco nb2 (List.mem_cons_of_mem _ h2)) hH.2 ?hf
        (fun nb2 h2 => hM nb2 (List.mem_cons_of_mem _ h2)) ?nids ?nni
      case hf =>
        intro hgt hh2
        rw [List.mem_cons, not_or]
        refine ⟨fun heq => hH.1 (heq ▸ hh2), ?_⟩
        exact hHf hgt (by rw [heightsOf_cons]; exact List.mem_cons_of_mem _ hh2)
      case nids =>
        refine List.Nodup.append ((List.nodup_reverse).mpr hcond.1) hids ?_
        intro a ha1 ha2
        rw [List.mem_reverse] at ha1
        exact hcond.2 a ha1 ha2
      case nni =>
        intro hcontra
        apply hNI
        rw [allIds_cons, List.append_assoc]
        have p1 : ((allIds rest) ++ ((bIds nb.2).reverse ++ ids)).Perm
            ((((bIds nb.2).reverse ++ ids) ++ allIds rest)) := List.perm_append_comm
        have p2 : (((bIds nb.2).reverse ++ ids) ++ allIds rest) =
            ((bIds nb.2).reverse ++ (ids ++ allIds rest)) := List.append_assoc _ _ _
        have p3 : ((bIds nb.2).reverse ++ (ids ++ allIds rest)).Perm
            (bIds nb.2 ++ (ids ++ allIds rest)) :=
          List.Perm.append_right _ (List.reverse_perm _)
        have p4 : (bIds nb.2 ++ (ids ++ allIds rest)).Perm
            (bIds nb.2 ++ (allIds rest ++ ids)) :=
          List.Perm.append_left _ List.perm_append_comm
        exact (((p2 ▸ p1).trans p3).trans p4).nodup hcontra
    · simp only [scanBucket_err e nb.2 ids 0 hcond]


theorem scanBuckets_errDupHeight (e : Env) (l : List (Bytes × List (Bytes × Bytes))) :
    ∀ tr ids, (∀ nb ∈ l, prefixDSCO.isPrefixOf nb.1) →
    (allIds l).Nodup → (∀ id ∈ allIds l, id ∉ ids) →
    (∀ nb ∈ l, minOK e nb) → tr.Nodup →
    ¬ (heightsOf l ++ tr).Nodup →
    scanBuckets e l tr ids = .error .repeatDSCOMap := by
  induction l with
  | nil =>
    intro tr ids _ _ _ _ htr hNH
    rw [heightsOf_nil, List.nil_append] at hNH
    exact absurd htr hNH
  | cons nb rest ih =>
    intro tr ids hdsco hI hIf hM htr hNH
    have hd := hdsco nb (List.mem_cons_self _ _)
    rw [allIds_cons, List.nodup_append] at hI
    rw [scanBuckets, if_pos hd]
    by_cases hh : bHeight nb.1 ∈ tr
    · rw [if_pos hh]
    · rw [if_neg hh]
      have hsb := scanBucket_ok e nb.2 ids 0 hI.1
        (fun id hid => hIf id (by rw [allIds_cons]; exact List.mem_append_left _ hid))
      simp only [hsb]
      have hmOK := hM nb (List.mem_cons_self _ _)
      rw [minOK] at hmOK
      rw [if_neg (by omega)]
      apply ih (bHeight nb.1 :: tr) ((bIds nb.2).reverse ++ ids)
        (fun nb2 h2 => hdsco nb2 (List.mem_cons_of_mem _ h2)) hI.2.1 ?idf
        (fun nb2 h2 => hM nb2 (List.mem_cons_of_mem _ h2))
        (List.nodup_cons.mpr ⟨hh, htr⟩) ?hnh
      case idf =>
        intro id hid
        rw [List.mem_append, not_or]
        refine ⟨fun hmem => ?_, ?_⟩
        · rw [List.mem_reverse] at hmem
          exact hI.2.2 hmem hid
        · exact hIf id (by rw [allIds_cons]; exact List.mem_append_right _ hid)
      case hnh =>
        intro hcontra
        apply hNH
        rw [heightsOf_cons, List.cons_append]
        exact (List.perm_middle.nodup hcontra)

theorem scanBuckets_ne_insuff (e : Env) (l : List (Bytes × List (Bytes × Bytes))) :
    ∀ tr ids, (∀ nb ∈ l, prefixDSCO.isPrefixOf nb.1 → minOK e nb) →
    scanBuckets e l tr ids ≠ .error .insufficientDSCO := by
  induction l with
  | nil =>
    intro tr ids _ h
    rw [scanBuckets] at h
    exact Except.noConfusion h
  | cons nb rest ih =>
    intro tr ids hM h
    rw [scanBuckets] at h
    by_cases hd : prefixDSCO.isPrefixOf nb.1
    · rw [if_pos hd] at h
      by_cases hh : bHeight nb.1 ∈ tr
      · rw [if_pos hh] at h
        simp at h
      · rw [if_neg hh] at h
        cases hsb : scanBucket e nb.2 ids 0 with
        | error er =>
          simp only [hsb] at h
          cases h
          have := scanBucket_err_kind e nb.2 ids 0 _ hsb
          simp at this
        | ok p =>
          obtain ⟨ids2, total⟩ := p
          simp only [hsb] at h
          have htot := scanBucket_ok_total e nb.2 ids 0 ids2 total hsb
          have hmOK := hM nb (List.mem_cons_self _ _) hd
          rw [minOK] at hmOK
          rw [if_neg (by omega)] at h
          exact ih _ _ (fun nb2 h2 => hM nb2 (List.mem_cons_of_mem _ h2)) h
    · rw [if_neg hd] at h
      exact ih _ _ (fun nb2 h2 => hM nb2 (List.mem_cons_of_mem _ h2)) h

theorem scanBuckets_ne_repeatId (e : Env) (l : List (Bytes × List (Bytes × Bytes))) :
    ∀ tr ids, (allIds (dscoBuckets l) ++ ids).Nodup →
    scanBuckets e l tr ids ≠ .error .repeatDelayedOutput := by
  induction l with
  | nil =>
    intro tr ids _ h
    rw [scanBuckets] at h
    exact Except.noConfusion h
  | cons nb rest ih =>
    intro tr ids hI h
    rw [scanBuckets] at h
    by_cases hd : prefixDSCO.isPrefixOf nb.1
    · rw [if_pos hd] at h
      have hfc : dscoBuckets (nb :: rest) = nb :: dscoBuckets rest := by
        rw [dscoBuckets, dscoBuckets, List.filter_cons, if_pos hd]
      rw [hfc, allIds_cons, List.append_assoc] at hI
      have hIsplit := List.nodup_append.mp hI
      by_cases hh : bHeight nb.1 ∈ tr
      · rw [if_pos hh] at h
        simp at h
      · rw [if_neg hh] at h
        have hsb := scanBucket_ok e nb.2 ids 0 hIsplit.1
          (fun id hid hmem => hIsplit.2.2 hid (List.mem_append_right _ hmem))
        simp only [hsb] at h
        by_cases hlt : 0 + bSum e nb.2 <
            e.calculateCoinbase (wsub (bHeight nb.1) e.maturityDelay)
        · rw [if_pos hlt] at h
          simp at h
        · rw [if_neg hlt] at h
          apply ih _ _ ?hn h
          case hn =>
            have p1 : (bIds nb.2 ++ (allIds (dscoBuckets rest) ++ ids)).Perm
                ((allIds (dscoBuckets rest) ++ ids) ++ bIds nb.2) := List.perm_append_comm
            have p2 : ((allIds (dscoBuckets rest) ++ ids) ++ bIds nb.2) =
                (allIds (dscoBuckets rest) ++ (ids ++ bIds nb.2)) := List.append_assoc _ _ _
            have p3 : (allIds (dscoBuckets rest) ++ (ids ++ bIds nb.2)).Perm
                (allIds (dscoBuckets rest) ++ (bIds nb.2 ++ ids)) :=
              List.Perm.append_left _ List.perm_append_comm
            have p4 : (allIds (dscoBuckets rest) ++ (bIds nb.2 ++ ids)).Perm
                (allIds (dscoBuckets rest) ++ ((bIds nb.2).reverse ++ ids)) :=
              List.Perm.append_left _
                (List.Perm.append_right _ (List.reverse_perm _).symm)
            exact ((((p2 ▸ p1).trans p3).trans p4)).nodup hI
    · rw [if_neg hd] at h
      have hfc : dscoBuckets (nb :: rest) = dscoBuckets rest := by
        rw [dscoBuckets, dscoBuckets, List.filter_cons, if_neg hd]
      rw [hfc] at hI
      exact ih _ _ hI h

theorem checkDSCOs_scan_err (e : Env) (tx : Tx) (er : CErr)
    (h : scanBuckets e tx.buckets [] [] = .error er) : checkDSCOs e tx = .error er := by
  rw [checkDSCOs]
  simp only [h]

theorem checkDSCOs_err_cases (e : Env) (tx : Tx) (er : CErr)
    (h : checkDSCOs e tx = .error er) :
    scanBuckets e tx.buckets [] [] = .error er ∨
      er = .missingDSCOBucket ∨ er = .tooManyDSCOBuckets := by
  rw [checkDSCOs] at h
  cases hs : scanBuckets e tx.buckets [] [] with
  | error er2 =>
    simp only [hs] at h
    cases h
    exact Or.inl rfl
  | ok p =>
    obtain ⟨tracker, ids⟩ := p
    simp only [hs] at h
    cases hl : checkExpectedLoop e.maturityDelay tracker
        (goLoopHeights tx.height e.maturityDelay) 0 with
    | error er3 =>
      simp only [hl] at h
      cases h
      exact Or.inr (Or.inl (checkExpectedLoop_err_kind _ _ _ _ _ hl))
    | ok cnt =>
      simp only [hl] at h
      by_cases hne : tracker.length ≠ cnt
      · rw [if_pos hne] at h
        cases h
        exact Or.inr (Or.inr rfl)
      · rw [if_neg hne] at h
        exact Except.noConfusion h

theorem checkDSCOs_ok_char (e : Env) (tx : Tx) (tracker : List Nat) (ids : List Bytes)
    (hs : scanBuckets e tx.buckets [] [] = .ok (tracker, ids)) :
    checkDSCOs e tx = .ok () ↔
      ((∀ i ∈ goLoopHeights tx.height e.maturityDelay,
          ¬ i < e.maturityDelay → i ∈ tracker) ∧
        tracker.length = (goLoopHeights tx.height e.maturityDelay).countP
          (fun i => decide (e.maturityDelay ≤ i))) := by
  rw [checkDSCOs]
  simp only [hs]
  constructor
  · intro h
    cases hl : checkExpectedLoop e.maturityDelay tracker
        (goLoopHeights tx.height e.maturityDelay) 0 with
    | error er =>
      simp only [hl] at h
      exact Except.noConfusion h
    | ok cnt =>
      simp only [hl] at h
      obtain ⟨h1, h2⟩ := checkExpectedLoop_ok_inv _ _ _ _ _ hl
      by_cases hne : tracker.length ≠ cnt
      · rw [if_pos hne] at h
        exact Except.noConfusion h
      · rw [not_not] at hne
        exact ⟨h1, by omega⟩
  · rintro ⟨h1, h2⟩
    simp only [checkExpectedLoop_ok _ _ _ _ h1]
    rw [if_neg (by omega)]

theorem checkDSCOs_missing (e : Env) (tx : Tx) (tracker : List Nat) (ids : List Bytes)
    (hs : scanBuckets e tx.buckets [] [] = .ok (tracker, ids))
    (hmiss : ∃ i ∈ goLoopHeights tx.height e.maturityDelay,
      ¬ i < e.maturityDelay ∧ i ∉ tracker) :
    checkDSCOs e tx = .error .missingDSCOBucket := by
  rw [checkDSCOs]
  simp only [hs]
  rw [checkExpectedLoop_err _ _ _ _ hmiss]

theorem checkDSCOs_toomany (e : Env) (tx : Tx) (tracker : List Nat) (ids : List Bytes)
    (hs : scanBuckets e tx.buckets [] [] = .ok (tracker, ids))
    (hall : ∀ i ∈ goLoopHeights tx.height e.maturityDelay,
      ¬ i < e.maturityDelay → i ∈ tracker)
    (hlen : tracker.length ≠ (goLoopHeights tx.height e.maturityDelay).countP
      (fun i => decide (e.maturityDelay ≤ i))) :
    checkDSCOs e tx = .error .tooManyDSCOBuckets := by
  rw [checkDSCOs]
  simp only [hs]
  simp only [checkExpectedLoop_ok _ _ _ _ hall]
  rw [if_pos (by omega)]

theorem checkSiafundCount_eq (e : Env) (tx : Tx) :
    checkSiafundCount e tx =
      if fundTotal e tx ≠ SiafundCount then .error .siafundMiscount else .ok () := by
  unfold checkSiafundCount
  rw [show (tx.bucket SiafundOutputs).foldl
      (fun acc kv => acc + e.decodeFundValue kv.2) 0 = fundTotal e tx from by
    simpa using foldl_add_eq_sum (fun kv => e.decodeFundValue kv.2) (tx.bucket SiafundOutputs) 0]

/-- C8: `checkConsistency` runs the coin-supply check, the siafund-supply
check, the maturity-schedule check and the revert/reapply check in that fixed
order and returns the first error without running later checks; it succeeds
exactly when all four succeed, and on a state whose fund total is tampered the
returned error is the fund-supply mismatch (no earlier check can fire, the
coin-supply check being a no-op). -/
theorem c8_checkConsistency_order (e : Env) (fork : ForkEngine) (tx : Tx) :
    (checkConsistency e fork tx = .ok () ↔
      (checkSiacoinCount tx = .ok () ∧ checkSiafundCount e tx = .ok () ∧
        checkDSCOs e tx = .ok () ∧ checkRevertApply fork tx = .ok ())) ∧
    (∀ er, checkSiafundCount e tx = .error er → checkConsistency e fork tx = .error er) ∧
    (∀ er, checkSiafundCount e tx = .ok () → checkDSCOs e tx = .error er →
      checkConsistency e fork tx = .error er) ∧
    (∀ er, checkSiafundCount e tx = .ok () → checkDSCOs e tx = .ok () →
      checkRevertApply fork tx = .error er → checkConsistency e fork tx = .error er) ∧
    (fundTotal e tx ≠ SiafundCount →
      checkConsistency e fork tx = .error .siafundMiscount) := by
  have hsfe := checkSiafundCount_eq e tx
  refine ⟨?_, ?_, ?_, ?_, ?_⟩
  · rw [checkConsistency]
    cases hsf : checkSiafundCount e tx with
    | error er =>
      simp only [checkSiacoinCount, hsf]
      constructor
      · intro h; exact Except.noConfusion h
      · rintro ⟨_, h2, _, _⟩
        exact Except.noConfusion h2
    | ok u =>
      obtain ⟨⟩ := u
      simp only [checkSiacoinCount, hsf]
      cases hds : checkDSCOs e tx with
      | error er =>
        simp only [hds]
        constructor
        · intro h; exact Except.noConfusion h
        · rintro ⟨_, _, h3, _⟩
          exact Except.noConfusion h3
      | ok u2 =>
        obtain ⟨⟩ := u2
        simp only [hds]
        constructor
        · intro h; exact ⟨trivial, trivial, trivial, h⟩
        · rintro ⟨_, _, _, h4⟩; exact h4
  · intro er her
    rw [checkConsistency]
    simp only [checkSiacoinCount, her]
  · intro er hsf hds
    rw [checkConsistency]
    simp only [checkSiacoinCount, hsf, hds]
  · intro er hsf hds hra
    rw [checkConsistency]
    simp only [checkSiacoinCount, hsf, hds, hra]
  · intro hft
    rw [checkConsistency]
    rw [if_pos hft] at hsfe
    simp only [checkSiacoinCount, hsfe]

/-- C3: when the bucket scan succeeds with tracked heights `tracker`, at
height at least `MaturityDelay` (and with no unsigned wrap in the loop
bounds), `checkDSCOs` fails with the missing-bucket error when some height in
`{H+1, ..., H+MaturityDelay}` has no bucket, fails with the too-many-buckets
error when they are all present but more buckets exist than expected, and
succeeds exactly when the tracked heights are exactly that window. -/
theorem c3_checkDSCOs_schedule (e : Env) (tx : Tx) (tracker : List Nat) (ids : List Bytes)
    (hScan : scanBuckets e tx.buckets [] [] = .ok (tracker, ids))
    (hmd : 0 < e.maturityDelay) (hch : e.maturityDelay ≤ tx.height)
    (hw : tx.height + e.maturityDelay < 2 ^ 64) :
    ((∃ i, tx.height + 1 ≤ i ∧ i ≤ tx.height + e.maturityDelay ∧ i ∉ tracker) →
      checkDSCOs e tx = .error .missingDSCOBucket) ∧
    ((∀ i, tx.height + 1 ≤ i → i ≤ tx.height + e.maturityDelay → i ∈ tracker) →
      e.maturityDelay < tracker.length →
      checkDSCOs e tx = .error .tooManyDSCOBuckets) ∧
    (checkDSCOs e tx = .ok () ↔
      ∀ i, (tx.height + 1 ≤ i ∧ i ≤ tx.height + e.maturityDelay) ↔ i ∈ tracker) := by
  have hgl := goLoopHeights_no_wrap tx.height e.maturityDelay hmd hw
  have hmem : ∀ i, i ∈ goLoopHeights tx.height e.maturityDelay ↔
      (tx.height + 1 ≤ i ∧ i ≤ tx.height + e.maturityDelay) := by
    intro i
    rw [hgl, mem_range_map]
    omega
  have hskip : ∀ i ∈ goLoopHeights tx.height e.maturityDelay, ¬ i < e.maturityDelay := by
    intro i hi
    rw [hmem] at hi
    omega
  have hcount : (goLoopHeights tx.height e.maturityDelay).countP
      (fun i => decide (e.maturityDelay ≤ i)) = e.maturityDelay := by
    have hlen : (goLoopHeights tx.height e.maturityDelay).length = e.maturityDelay := by
      rw [hgl, List.length_map, List.length_range]
    have h1 : (goLoopHeights tx.height e.maturityDelay).countP
        (fun i => decide (e.maturityDelay ≤ i)) =
        (goLoopHeights tx.height e.maturityDelay).length :=
      List.countP_eq_length.mpr
        (fun a ha => decide_eq_true (Nat.not_lt.mp (hskip a ha)))
    rw [h1, hlen]
  have htrnd : tracker.Nodup :=
    scanBuckets_ok_nodup e tx.buckets [] tracker [] ids hScan List.nodup_nil
  refine ⟨?_, ?_, ?_⟩
  · rintro ⟨i, h1, h2, h3⟩
    exact checkDSCOs_missing e tx tracker ids hScan
      ⟨i, (hmem i).mpr ⟨h1, h2⟩, by omega, h3⟩
  · intro hall hlen
    refine checkDSCOs_toomany e tx tracker ids hScan ?_ (by omega)
    intro i hi _
    rw [hmem] at hi
    exact hall i hi.1 hi.2
  · rw [checkDSCOs_ok_char e tx tracker ids hScan]
    constructor
    · rintro ⟨hsub, hlen⟩
      rw [hcount] at hlen
      have hW : tracker.toFinset = Finset.Icc (tx.height + 1) (tx.height + e.maturityDelay) := by
        refine (Finset.eq_of_subset_of_card_le ?_ ?_).symm
        · intro i hi
          rw [Finset.mem_Icc] at hi
          rw [List.mem_toFinset]
          exact hsub i ((hmem i).mpr hi) (by omega)
        · rw [List.toFinset_card_of_nodup htrnd, Nat.card_Icc]
          omega
      intro i
      constructor
      · intro hi
        exact hsub i ((hmem i).mpr hi) (by omega)
      · intro hi
        have : i ∈ tracker.toFinset := List.mem_toFinset.mpr hi
        rw [hW, Finset.mem_Icc] at this
        exact this
    · intro hiff
      refine ⟨fun i hi _ => (hiff i).mp ((hmem i).mp hi), ?_⟩
      rw [hcount]
      have hW : tracker.toFinset = Finset.Icc (tx.height + 1) (tx.height + e.maturityDelay) := by
        ext i
        rw [List.mem_toFinset, Finset.mem_Icc]
        exact (hiff i).symm
      rw [← List.toFinset_card_of_nodup htrnd, hW, Nat.card_Icc]
      omega

/-- A concrete environment with `MaturityDelay = 10`, little-endian value
decoders and a zero coinbase schedule, for the height-1 scenario. -/
def envC4 : Env :=
  { decodeFundValue := leDecode, decodeCoinValue := leDecode
    calculateCoinbase := fun _ => 0, maturityDelay := 10 }

/-- A concrete fork engine that reports success and leaves the state
unchanged. -/
def forkId : ForkEngine := fun t _ => .ok t

/-- A concrete height-1 consensus state with no delayed-siacoin-output
buckets, a correct siafund supply (one output worth 10000) and recorded
checksums matching the state. -/
def txC4 : Tx :=
  { buckets := [(SiafundOutputs, [([0], [16, 39])])]
    height := 1
    currentPB := { parentID := [9], consensusChecksum := [[0], [16, 39]] }
    blockMap := [([9], { parentID := [8], consensusChecksum := [[0], [16, 39]] })] }

/-- C4 (counterexample): at height 1 with `MaturityDelay = 10` and zero
delayed-siacoin-output buckets, on a state whose every other check passes,
`checkConsistency` does not succeed: the expected-heights loop reaches height
10 (which is not below `MaturityDelay`) and fails with the missing-bucket
error. -/
theorem c4_counterexample :
    envC4.maturityDelay = 10 ∧ txC4.height = 1 ∧ dscoBuckets txC4.buckets = [] ∧
    fundTotal envC4 txC4 = SiafundCount ∧
    checkRevertApply forkId txC4 = .ok () ∧
    checkConsistency envC4 forkId txC4 = .error .missingDSCOBucket := by
  refine ⟨rfl, rfl, by decide, by decide, by decide, by decide⟩

/-- C4 (amended): at height 1 with `MaturityDelay = 10`, the heights 2
through 9 of the expected window are exempt but heights 10 and 11 are not:
with zero delayed-siacoin-output buckets `checkDSCOs` (and `checkConsistency`,
once the siafund check passes) fails with the missing-bucket error, and when
the scan succeeds the maturity phase passes exactly when buckets for exactly
heights 10 and 11 are present. -/
theorem c4_amended (e : Env) (fork : ForkEngine) (tx : Tx)
    (hmd : e.maturityDelay = 10) (hh : tx.height = 1) :
    (dscoBuckets tx.buckets = [] → checkDSCOs e tx = .error .missingDSCOBucket) ∧
    (dscoBuckets tx.buckets = [] → checkSiafundCount e tx = .ok () →
      checkConsistency e fork tx = .error .missingDSCOBucket) ∧
    (∀ tracker ids, scanBuckets e tx.buckets [] [] = .ok (tracker, ids) →
      (checkDSCOs e tx = .ok () ↔
        (10 ∈ tracker ∧ 11 ∈ tracker ∧ tracker.length = 2))) := by
  have hglc : goLoopHeights 1 10 = [2, 3, 4, 5, 6, 7, 8, 9, 10, 11] := by decide
  have hmiss : ∀ (hempty : dscoBuckets tx.buckets = []),
      checkDSCOs e tx = .error .missingDSCOBucket := by
    intro hempty
    have hScan : scanBuckets e tx.buckets [] [] = .ok ([], []) := by
      rw [scanBuckets_filter, hempty, scanBuckets]
    refine checkDSCOs_missing e tx [] [] hScan ?_
    rw [hh, hmd, hglc]
    exact ⟨10, by decide, by decide, by decide⟩
  refine ⟨hmiss, ?_, ?_⟩
  · intro hempty hsf
    rw [checkConsistency]
    simp only [checkSiacoinCount, hsf, hmiss hempty]
  · intro tracker ids hScan
    rw [checkDSCOs_ok_char e tx tracker ids hScan, hh, hmd, hglc]
    constructor
    · rintro ⟨hsub, hlen⟩
      refine ⟨hsub 10 (by decide) (by decide), hsub 11 (by decide) (by decide), ?_⟩
      rw [hlen]
      decide
    · rintro ⟨h10, h11, hlen⟩
      refine ⟨?_, by rw [hlen]; decide⟩
      intro i hi hge
      fin_cases hi <;> simp_all

theorem allIds_append (a b : List (Bytes × List (Bytes × Bytes))) :
    allIds (a ++ b) = allIds a ++ allIds b := by
  simp [allIds]

theorem heightsOf_append (a b : List (Bytes × List (Bytes × Bytes))) :
    heightsOf (a ++ b) = heightsOf a ++ heightsOf b := by
  simp [heightsOf]

theorem toId_len32 (b : Bytes) (h : b.length = 32) : toId b = b := by
  rw [toId, ← h, List.take_left]

theorem dsco_of_mem_dscoBuckets (l : List (Bytes × List (Bytes × Bytes)))
    (nb : Bytes × List (Bytes × Bytes)) (h : nb ∈ dscoBuckets l) :
    prefixDSCO.isPrefixOf nb.1 := by
  rw [dscoBuckets] at h
  exact (List.mem_filter.mp h).2

/-- C5: with globally distinct bucket heights and output ids, a
delayed-siacoin-output bucket whose total decoded value is strictly below the
coinbase computed for `height - MaturityDelay` makes `checkDSCOs` fail with
the insufficient-funds error (in particular a total one unit below the
subsidy), while a state in which every bucket's total is at least its subsidy
(equality included) never produces that error. -/
theorem c5_checkDSCOs_minimum (e : Env) (tx : Tx) :
    (((heightsOf (dscoBuckets tx.buckets)).Nodup →
      (allIds (dscoBuckets tx.buckets)).Nodup →
      (∃ nb ∈ dscoBuckets tx.buckets,
        bSum e nb.2 < e.calculateCoinbase (wsub (bHeight nb.1) e.maturityDelay)) →
      checkDSCOs e tx = .error .insufficientDSCO)) ∧
    ((∀ nb ∈ dscoBuckets tx.buckets,
        e.calculateCoinbase (wsub (bHeight nb.1) e.maturityDelay) ≤ bSum e nb.2) →
      checkDSCOs e tx ≠ .error .insufficientDSCO) := by
  constructor
  · rintro hH hI ⟨nb, hmem, hlt⟩
    apply checkDSCOs_scan_err
    rw [scanBuckets_filter]
    refine scanBuckets_errInsuff e (dscoBuckets tx.buckets) [] []
      (fun nb2 h2 => dsco_of_mem_dscoBuckets _ _ h2) hH
      (fun h2 _ => List.not_mem_nil _) hI (fun id _ => List.not_mem_nil _)
      ⟨nb, hmem, ?_⟩
    rw [minOK, not_le]
    exact hlt
  · intro hall hcontra
    rcases checkDSCOs_err_cases e tx _ hcontra with hs | h | h
    · refine scanBuckets_ne_insuff e tx.buckets [] [] ?_ hs
      intro nb hmem hpre
      have : nb ∈ dscoBuckets tx.buckets := by
        rw [dscoBuckets]
        exact List.mem_filter.mpr ⟨hmem, hpre⟩
      rw [minOK]
      exact hall nb this
    · exact CErr.noConfusion h
    · exact CErr.noConfusion h

/-- C10: `types.BlockHeight` is unsigned, so for a bucket height `h` strictly
below `MaturityDelay` the subtraction `h - MaturityDelay` wraps modulo
`2 ^ 64`; such a bucket is not exempt from the minimum-value check — its total
is compared against the coinbase computed at the wrapped height
`2 ^ 64 - (MaturityDelay - h)`, and a smaller total makes `checkDSCOs` fail
with the insufficient-funds error. -/
theorem c10_checkDSCOs_wrap (e : Env) (tx : Tx) :
    (∀ h md, h < md → md < 2 ^ 64 → wsub h md = 2 ^ 64 - (md - h)) ∧
    ((heightsOf (dscoBuckets tx.buckets)).Nodup →
      (allIds (dscoBuckets tx.buckets)).Nodup →
      ∀ nb ∈ dscoBuckets tx.buckets, bHeight nb.1 < e.maturityDelay →
      e.maturityDelay < 2 ^ 64 →
      bSum e nb.2 < e.calculateCoinbase (2 ^ 64 - (e.maturityDelay - bHeight nb.1)) →
      checkDSCOs e tx = .error .insufficientDSCO) := by
  have hws : ∀ h md, h < md → md < 2 ^ 64 → wsub h md = 2 ^ 64 - (md - h) := by
    intro h md h1 h2
    rw [wsub, Nat.mod_eq_of_lt (by omega), Nat.mod_eq_of_lt (by omega),
      Nat.mod_eq_of_lt (by omega)]
    omega
  refine ⟨hws, ?_⟩
  intro hH hI nb hmem hlt hmd2 hbs
  apply checkDSCOs_scan_err
  rw [scanBuckets_filter]
  refine scanBuckets_errInsuff e (dscoBuckets tx.buckets) [] []
    (fun nb2 h2 => dsco_of_mem_dscoBuckets _ _ h2) hH
    (fun h2 _ => List.not_mem_nil _) hI (fun id _ => List.not_mem_nil _)
    ⟨nb, hmem, ?_⟩
  rw [minOK, not_le, hws (bHeight nb.1) e.maturityDelay hlt hmd2]
  exact hbs

/-- C7: the id map of `checkDSCOs` persists across the whole scan — with
distinct bucket heights and all totals sufficient, an output id occurring in
two different delayed-siacoin-output buckets makes the scan fail with the
duplicate-delayed-output error; in a well-formed store (32-byte keys, unique
within each bucket) where every id lives in at most one bucket that error is
never returned; and with globally distinct ids and sufficient totals, two
bucket names decoding to the same height make the scan fail with the
duplicate-bucket error. -/
theorem c7_checkDSCOs_duplicates (e : Env) (tx : Tx) :
    (((heightsOf (dscoBuckets tx.buckets)).Nodup →
      (∀ nb ∈ dscoBuckets tx.buckets, minOK e nb) →
      (∃ l1 nb1 l2 nb2 l3, dscoBuckets tx.buckets = l1 ++ nb1 :: (l2 ++ nb2 :: l3) ∧
        ∃ id, id ∈ bIds nb1.2 ∧ id ∈ bIds nb2.2) →
      checkDSCOs e tx = .error .repeatDelayedOutput)) ∧
    (((∀ nb ∈ dscoBuckets tx.buckets, ∀ kv ∈ nb.2, kv.1.length = 32) →
      (∀ nb ∈ dscoBuckets tx.buckets, (nb.2.map Prod.fst).Nodup) →
      (dscoBuckets tx.buckets).Pairwise (fun a b => ∀ id ∈ bIds a.2, id ∉ bIds b.2) →
      checkDSCOs e tx ≠ .error .repeatDelayedOutput)) ∧
    (((allIds (dscoBuckets tx.buckets)).Nodup →
      (∀ nb ∈ dscoBuckets tx.buckets, minOK e nb) →
      (∃ l1 nb1 l2 nb2 l3, dscoBuckets tx.buckets = l1 ++ nb1 :: (l2 ++ nb2 :: l3) ∧
        bHeight nb1.1 = bHeight nb2.1) →
      checkDSCOs e tx = .error .repeatDSCOMap)) := by
  refine ⟨?_, ?_, ?_⟩
  · rintro hH hM ⟨l1, nb1, l2, nb2, l3, hsplit, id, hid1, hid2⟩
    apply checkDSCOs_scan_err
    rw [scanBuckets_filter]
    refine scanBuckets_errDupId e (dscoBuckets tx.buckets) [] []
      (fun nb2 h2 => dsco_of_mem_dscoBuckets _ _ h2) hH
      (fun h2 _ => List.not_mem_nil _) hM List.nodup_nil ?_
    rw [List.append_nil, hsplit]
    intro hcontra
    rw [allIds_append, allIds_cons, allIds_append, allIds_cons] at hcontra
    have h2 := (List.Nodup.of_append_right hcontra)
    rw [List.nodup_append] at h2
    exact h2.2.2 hid1 (List.mem_append_right _ (List.mem_append_left _ hid2))
  · intro hlen hkey hpair hcontra
    rcases checkDSCOs_err_cases e tx _ hcontra with hs | h | h
    · refine scanBuckets_ne_repeatId e tx.buckets [] [] ?_ hs
      rw [List.append_nil, allIds]
      rw [List.nodup_flatten]
      constructor
      · intro l hl
        rcases List.mem_map.mp hl with ⟨nb, hnb, rfl⟩
        have : bIds nb.2 = nb.2.map Prod.fst := by
          rw [bIds]
          exact List.map_congr_left
            (fun kv hkv => toId_len32 _ (hlen nb hnb kv hkv))
        rw [this]
        exact hkey nb hnb
      · rw [List.pairwise_map]
        exact hpair.imp (fun hab => fun a ha hb => hab a ha hb)
    · exact CErr.noConfusion h
    · exact CErr.noConfusion h
  · rintro hI hM ⟨l1, nb1, l2, nb2, l3, hsplit, hheq⟩
    apply checkDSCOs_scan_err
    rw [scanBuckets_filter]
    refine scanBuckets_errDupHeight e (dscoBuckets tx.buckets) [] []
      (fun nb2 h2 => dsco_of_mem_dscoBuckets _ _ h2) hI
      (fun id _ => List.not_mem_nil _) hM List.nodup_nil ?_
    rw [List.append_nil, hsplit]
    intro hcontra
    rw [heightsOf_append, heightsOf_cons, heightsOf_append, heightsOf_cons] at hcontra
    have h2 := (List.Nodup.of_append_right hcontra)
    rw [List.nodup_cons] at h2
    exact h2.1 (by rw [hheq]; exact List.mem_append_right _ (List.mem_cons_self _ _))

/-- A concrete state whose block map holds the parent of the current block
but records a checksum different from the reverted state's. -/
def txC1 : Tx :=
  { buckets := []
    height := 0
    currentPB := { parentID := [7], consensusChecksum := [] }
    blockMap := [([7], { parentID := [6], consensusChecksum := [[42]] })] }

theorem c1_checkRevertApply_witness :
    checkRevertApply forkId txC1 = .error .checksumMismatchRevert :=
  (c1_checkRevertApply_spec forkId txC1).2.1
    { parentID := [6], consensusChecksum := [[42]] } txC1 (by decide) rfl (by decide)

theorem c2_checkSiafundCount_witness :
    checkSiafundCount envC4 txC4 = .ok () :=
  (c2_checkSiafundCount_spec envC4 txC4).1.mpr (by decide)

/-- A concrete environment with `MaturityDelay = 2` and a zero coinbase. -/
def env3 : Env :=
  { decodeFundValue := leDecode, decodeCoinValue := leDecode
    calculateCoinbase := fun _ => 0, maturityDelay := 2 }

/-- A height-5 state with a maturity bucket for height 6 but none for 7. -/
def txC3 : Tx :=
  { buckets := [(prefixDSCO ++ [6, 0, 0, 0, 0, 0, 0, 0], [(List.replicate 32 1, [0])])]
    height := 5
    currentPB := { parentID := [], consensusChecksum := [] }
    blockMap := [] }

theorem c3_checkDSCOs_schedule_witness :
    checkDSCOs env3 txC3 = .error .missingDSCOBucket :=
  (c3_checkDSCOs_schedule env3 txC3 [6] [List.replicate 32 1]
    (by decide) (by decide) (by decide) (by decide)).1
    ⟨7, by decide, by decide, by decide⟩

/-- A height-1 state with valid maturity buckets for exactly heights 10
and 11. -/
def txC4b : Tx :=
  { buckets := [(prefixDSCO ++ [10, 0, 0, 0, 0, 0, 0, 0], [(List.replicate 32 1, [5])]),
                (prefixDSCO ++ [11, 0, 0, 0, 0, 0, 0, 0], [(List.replicate 32 2, [7])])]
    height := 1
    currentPB := { parentID := [], consensusChecksum := [] }
    blockMap := [] }

theorem c4_amended_witness : checkDSCOs envC4 txC4b = .ok () :=
  ((c4_amended envC4 forkId txC4b rfl rfl).2.2
    [11, 10] [List.replicate 32 2, List.replicate 32 1] (by decide)).mpr (by decide)

/-- A concrete environment whose coinbase is 6 at every height,
`MaturityDelay = 10`. -/
def env5 : Env :=
  { decodeFundValue := leDecode, decodeCoinValue := leDecode
    calculateCoinbase := fun _ => 6, maturityDelay := 10 }

/-- A state whose single maturity bucket totals 5: one unit below the
subsidy 6. -/
def txC5a : Tx :=
  { buckets := [(prefixDSCO ++ [10, 0, 0, 0, 0, 0, 0, 0], [(List.replicate 32 1, [5])])]
    height := 1
    currentPB := { parentID := [], consensusChecksum := [] }
    blockMap := [] }

/-- A state whose single maturity bucket totals exactly the subsidy 6. -/
def txC5b : Tx :=
  { buckets := [(prefixDSCO ++ [10, 0, 0, 0, 0, 0, 0, 0], [(List.replicate 32 1, [6])])]
    height := 1
    currentPB := { parentID := [], consensusChecksum := [] }
    blockMap := [] }

theorem c5_checkDSCOs_minimum_witness :
    checkDSCOs env5 txC5a = .error .insufficientDSCO ∧
    checkDSCOs env5 txC5b ≠ .error .insufficientDSCO := by
  constructor
  · exact (c5_checkDSCOs_minimum env5 txC5a).1 (by decide) (by decide)
      ⟨(prefixDSCO ++ [10, 0, 0, 0, 0, 0, 0, 0], [(List.replicate 32 1, [5])]),
        by decide, by decide⟩
  · exact (c5_checkDSCOs_minimum env5 txC5b).2 (by decide)

/-- A state with one output id present in the maturity buckets of both
heights 10 and 11. -/
def txC7 : Tx :=
  { buckets := [(prefixDSCO ++ [10, 0, 0, 0, 0, 0, 0, 0], [(List.replicate 32 1, [0])]),
                (prefixDSCO ++ [11, 0, 0, 0, 0, 0, 0, 0], [(List.replicate 32 1, [0])])]
    height := 1
    currentPB := { parentID := [], consensusChecksum := [] }
    blockMap := [] }

/-- A state with two distinct maturity-bucket names both decoding to
height 10. -/
def txC7b : Tx :=
  { buckets := [(prefixDSCO ++ [10, 0, 0, 0, 0, 0, 0, 0], [(List.replicate 32 1, [0])]),
                (prefixDSCO ++ [10, 0, 0, 0, 0, 0, 0, 0, 9], [(List.replicate 32 2, [0])])]
    height := 1
    currentPB := { parentID := [], consensusChecksum := [] }
    blockMap := [] }

theorem c7_checkDSCOs_duplicates_witness :
    checkDSCOs envC4 txC7 = .error .repeatDelayedOutput ∧
    checkDSCOs envC4 txC7b = .error .repeatDSCOMap := by
  constructor
  · exact (c7_checkDSCOs_duplicates envC4 txC7).1 (by decide) (by decide)
      ⟨[], (prefixDSCO ++ [10, 0, 0, 0, 0, 0, 0, 0], [(List.replicate 32 1, [0])]),
        [], (prefixDSCO ++ [11, 0, 0, 0, 0, 0, 0, 0], [(List.replicate 32 1, [0])]),
        [], by decide, List.replicate 32 1, by decide, by decide⟩
  · exact (c7_checkDSCOs_duplicates envC4 txC7b).2.2 (by decide) (by decide)
      ⟨[], (prefixDSCO ++ [10, 0, 0, 0, 0, 0, 0, 0], [(List.replicate 32 1, [0])]),
        [], (prefixDSCO ++ [10, 0, 0, 0, 0, 0, 0, 0, 9], [(List.replicate 32 2, [0])]),
        [], by decide, by decide⟩

/-- A state whose siafund-output bucket sums to 9999, one below the required
supply total. -/
def txC8 : Tx :=
  { buckets := [(SiafundOutputs, [([0], [15, 39])])]
    height := 1
    currentPB := { parentID := [], consensusChecksum := [] }
    blockMap := [] }

theorem c8_checkConsistency_order_witness :
    checkConsistency envC4 forkId txC8 = .error .siafundMiscount :=
  (c8_checkConsistency_order envC4 forkId txC8).2.2.2.2 (by decide)

/-- A concrete environment whose coinbase is 1 at the wrapped height
`2 ^ 64 - 5` and 0 elsewhere, `MaturityDelay = 10`. -/
def env10 : Env :=
  { decodeFundValue := leDecode, decodeCoinValue := leDecode
    calculateCoinbase := fun h => if h = 2 ^ 64 - 5 then 1 else 0
    maturityDelay := 10 }

/-- A state with a maturity bucket at height 5 (below the delay 10) whose
total 0 is below the wrapped-height coinbase 1. -/
def txC10 : Tx :=
  { buckets := [(prefixDSCO ++ [5, 0, 0, 0, 0, 0, 0, 0], [(List.replicate 32 1, [0])])]
    height := 1
    currentPB := { parentID := [], consensusChecksum := [] }
    blockMap := [] }

theorem c10_checkDSCOs_wrap_witness :
    wsub 5 10 = 2 ^ 64 - 5 ∧
    checkDSCOs env10 txC10 = .error .insufficientDSCO := by
  constructor
  · exact (c10_checkDSCOs_wrap env10 txC10).1 5 10 (by decide) (by decide)
  · exact (c10_checkDSCOs_wrap env10 txC10).2 (by decide) (by decide)
      (prefixDSCO ++ [5, 0, 0, 0, 0, 0, 0, 0], [(List.replicate 32 1, [0])])
      (by decide) (by decide) (by decide) (by decide)

end Sia
